import Mathlib

/-!
Verification development for the xyzpy combination-evaluation core
(`xyzpy/gen/combo_runner.py` and `xyzpy/utils.py`).

Python nested lists are embedded as the rose tree `NTree`; Python dicts of
keyword arguments as association lists (`Kwds`) with last-write-wins update
(`dictInsert`, mirroring the dict display `{**kwds, arg: x}`) and a fallible
call-merge (`call_kwargs`, mirroring the call syntax `fn(**kwds, **{arg: x})`
which raises `TypeError` on a duplicate keyword).  Fallible Python code is
embedded with `Except`/`Option`.
-/

namespace Xyzpy

/-- Keyword-argument dictionaries: association lists keyed by strings,
kept duplicate-free by construction (`dictInsert` updates in place). -/
abbrev Kwds (α : Type) := List (String × α)

/-- Python `k in d` on a dict. -/
def containsKey {α : Type} (d : Kwds α) (k : String) : Bool :=
  d.any (fun p => p.1 == k)

/-- Python dict display `{**d, k: v}`: if `k` is already a key its value is
overwritten in place (last write wins, insertion position kept), otherwise
`(k, v)` is appended. -/
def dictInsert {α : Type} (d : Kwds α) (k : String) (v : α) : Kwds α :=
  if containsKey d k then d.map (fun p => if p.1 == k then (k, v) else p)
  else d ++ [(k, v)]

/-- Python dict lookup on the association-list embedding. -/
def lookupKw {α : Type} : Kwds α → String → Option α
  | [], _ => none
  | p :: ps, k => if p.1 == k then some p.2 else lookupKw ps k

/-- Errors surfaced by the embedded functions, mirroring the Python
exceptions that the corresponding source lines can raise. -/
inductive Err where
  | indexError
  | duplicateKwarg (arg : String)
  | typeError
  | badScheduler (s : String)
  deriving Repr, DecidableEq

/-- Python call syntax `f(**kwds, **{arg: x})`: raises `TypeError` when `arg`
is already a key of `kwds`, otherwise the merged keyword dictionary is `kwds`
followed by the new binding. -/
def call_kwargs {α : Type} (kwds : Kwds α) (arg : String) (x : α) :
    Except Err (Kwds α) :=
  if containsKey kwds arg then .error (.duplicateKwarg arg)
  else .ok (kwds ++ [(arg, x)])

/-- Rose tree embedding Python's untyped nested lists: a `node` is a
list/tuple level, a `leaf` is a non-iterable scalar. -/
inductive NTree (γ : Type) where
  | leaf (x : γ)
  | node (cs : List (NTree γ))
  deriving Repr

instance {γ : Type} : Inhabited (NTree γ) := ⟨.node []⟩

mutual

/-- Leaves of a tree, left to right. -/
def leavesList {γ : Type} : NTree γ → List γ
  | .leaf x => [x]
  | .node cs => leavesMany cs

/-- Leaves of a forest, left to right. -/
def leavesMany {γ : Type} : List (NTree γ) → List γ
  | [] => []
  | c :: cs => leavesList c ++ leavesMany cs

end

mutual

/-- Map a function over every leaf of a tree. -/
def treeMap {γ δ : Type} (g : γ → δ) : NTree γ → NTree δ
  | .leaf x => .leaf (g x)
  | .node cs => .node (treeMapMany g cs)

/-- Map a function over every leaf of a forest. -/
def treeMapMany {γ δ : Type} (g : γ → δ) : List (NTree γ) → List (NTree δ)
  | [] => []
  | c :: cs => treeMap g c :: treeMapMany g cs

end

mutual

/-- Grid-shape predicate: `hasShape t ns` holds when `t` is an exact Cartesian-grid tree of shape `ns`
(dimension `i` has length `ns[i]`; leaves exactly at depth `ns.length`). -/
def hasShape {γ : Type} : NTree γ → List Nat → Bool
  | .leaf _, ns => ns.isEmpty
  | .node _, [] => false
  | .node cs, n :: ns => (cs.length == n) && hasShapeAll cs ns

/-- Every tree of the forest is a grid of shape `ns`. -/
def hasShapeAll {γ : Type} : List (NTree γ) → List Nat → Bool
  | [], _ => true
  | c :: cs, ns => hasShape c ns && hasShapeAll cs ns

end

/-- Value of a grid tree at a logical (multi-)index. -/
def treeGet {γ : Type} : NTree γ → List Nat → Option γ
  | .leaf x, [] => some x
  | .leaf _, _ :: _ => none
  | .node _, [] => none
  | .node cs, i :: ix =>
    match cs[i]? with
    | some c => treeGet c ix
    | none => none

/-! ## Submission engine (`nested_submit`, combo_runner.py lines 48-84)

The three leaf modes of the source (`pool.submit`/`apply_async` handle,
`delayed` node, direct call) are embedded as the sum type `PLeaf`.  A future
or delayed leaf records the keyword dictionary of the call it stands for;
the backend is assumed to eventually perform exactly that call
(see `resolveLeaf`). -/

/-- A leaf of the pending-work tree: a raw value (direct mode), a submitted
future handle (pooled mode), or a deferred node (delayed mode). -/
inductive PLeaf (α β : Type) where
  | value (b : β)
  | future (kwds : Kwds α)
  | deferred (kwds : Kwds α)
  deriving Repr

/-- Embedding of
`nested_submit(fn, combos, kwds, delay=delay, pool=pool)`.

At the innermost entry each value produces one leaf from the call-merged
kwargs (`fn(**kwds, **{arg: x})` and its `submitter`/`delayed` variants all
merge by call syntax, so a duplicate keyword raises); an outer entry recurses
with the dict display `{**kwds, arg: x}` merged in.  `combos[0]` on an empty
list raises `IndexError`.  As in the source, `pool` takes precedence over
`delay`. -/
def nested_submit {α β : Type} (fn : Kwds α → β) :
    List (String × List α) → Kwds α → Bool → Bool →
    Except Err (NTree (PLeaf α β))
  | [], _, _, _ => .error .indexError
  | [(arg, inputs)], kwds, delay, pool =>
    (inputs.mapM (fun x =>
      (call_kwargs kwds arg x).map (fun k =>
        NTree.leaf (if pool then PLeaf.future k
                    else if delay then PLeaf.deferred k
                    else PLeaf.value (fn k))))).map NTree.node
  | (arg, inputs) :: c :: cs, kwds, delay, pool =>
    (inputs.mapM (fun x =>
      nested_submit fn (c :: cs) (dictInsert kwds arg x) delay pool)).map
      NTree.node

/-- Reference builder for the tree `nested_submit` produces when no keyword
collision occurs: same recursion, leaves given by an arbitrary function of
the fully merged kwargs. -/
def buildTree {α γ : Type} (leafF : Kwds α → γ) :
    List (String × List α) → Kwds α → NTree γ
  | [], _ => .node []
  | [(arg, inputs)], kwds =>
    .node (inputs.map (fun x => .leaf (leafF (kwds ++ [(arg, x)]))))
  | (arg, inputs) :: c :: cs, kwds =>
    .node (inputs.map (fun x => buildTree leafF (c :: cs) (dictInsert kwds arg x)))

/-- Row-major (lexicographic in combination order) enumeration of the fully
merged keyword dictionaries of all Cartesian combinations. -/
def assignments {α : Type} :
    List (String × List α) → Kwds α → List (Kwds α)
  | [], _ => []
  | [(arg, inputs)], kwds => inputs.map (fun x => kwds ++ [(arg, x)])
  | (arg, inputs) :: c :: cs, kwds =>
    inputs.flatMap (fun x => assignments (c :: cs) (dictInsert kwds arg x))

/-! ## Collection engine (`nested_get`, combo_runner.py lines 108-112) -/

/-- At `ndim == 1` the collection comprehension applies the getter to each
element, which must be a scalar leaf (applying a result accessor to a
sub-list is a dynamic error, embedded as `none`). -/
def getLeaf1 {γ δ : Type} (getter : γ → δ) : NTree γ → Option (NTree δ)
  | .leaf x => some (.leaf (getter x))
  | .node _ => none

mutual

/-- Embedding of `nested_get(futures, ndim, getter)`.  The source checks
`ndim == 1` and otherwise recurses with `ndim - 1` (over the integers), so
`ndim` is an `Int` here; applying `getter` to a sub-list or iterating a
scalar leaf is a dynamic type error, embedded as `none`. -/
def nested_get {γ δ : Type} (getter : γ → δ) : NTree γ → Int → Option (NTree δ)
  | .leaf _, _ => none
  | .node fs, n =>
    if n = 1 then (fs.mapM (getLeaf1 getter)).map NTree.node
    else (nested_getMany getter fs (n - 1)).map NTree.node

/-- Apply `nested_get` to each element of a list, in order. -/
def nested_getMany {γ δ : Type} (getter : γ → δ) :
    List (NTree γ) → Int → Option (List (NTree δ))
  | [], _ => some []
  | f :: fs, n => do
    let r ← nested_get getter f n
    let rs ← nested_getMany getter fs n
    pure (r :: rs)

end

/-! ## Result reshaping (`unzip`, utils.py lines 23-51)

Python tuples and lists are both `node`s of the rose tree, so a depth-`d`
nested list of arity-`k` tuples is a grid of shape `ns ++ [k]`.  `zip(*xs)`
truncates to the shortest argument, which `transposeMin` captures. -/

/-- Children of a tree when it is iterable, `none` for a scalar
(Python `TypeError` on iterating a non-iterable). -/
def childrenOf {γ : Type} : NTree γ → Option (List (NTree γ))
  | .leaf _ => none
  | .node cs => some cs

/-- Children of a tree, with `[]` for a scalar leaf. -/
def childrenD {γ : Type} : NTree γ → List (NTree γ)
  | .leaf _ => []
  | .node cs => cs

/-- Length of the shortest list, 0 when there are none (Python `zip()` with
no arguments is empty). -/
def minLen {γ : Type} : List (List γ) → Nat
  | [] => 0
  | cs :: css => css.foldl (fun m ds => Nat.min m ds.length) cs.length

/-- Transpose truncating to the shortest row, as Python `zip(*rows)` does. -/
def transposeMin {γ : Type} [Inhabited γ] (css : List (List γ)) :
    List (List γ) :=
  (List.range (minLen css)).map (fun j => css.map (fun cs => cs.getD j default))

/-- Python `zip(*t)`: iterate `t`, require each element iterable, and zip
them (truncating to the shortest); the produced tuples are again nodes. -/
def pyZipStar {γ : Type} : NTree γ → Option (NTree γ)
  | .leaf _ => none
  | .node ts =>
    (ts.mapM childrenOf).map
      (fun css => NTree.node ((transposeMin css).map NTree.node))

/-- Embedding of the inner `_unzipper(its, zip_level)` of `unzip`: at
`zip_level > 1` it maps `zip(*_unzipper(it, zip_level - 1))` over the
elements of `its`, otherwise it returns `its` unchanged. -/
def unzipper {γ : Type} : Nat → NTree γ → Option (NTree γ)
  | 0, t => some t
  | 1, t => some t
  | zl + 2, t =>
    match t with
    | .leaf _ => none
    | .node ts =>
      (ts.mapM (fun it => (unzipper (zl + 1) it).bind pyZipStar)).map NTree.node

/-- Embedding of `unzip(its, zip_level)`:
`zip(*_unzipper(its, zip_level)) if zip_level else its`. -/
def unzip {γ : Type} (its : NTree γ) (zip_level : Nat) : Option (NTree γ) :=
  if zip_level ≠ 0 then (unzipper zip_level its).bind pyZipStar else some its

/-- Projection: `projTree d j t` is the `j`-th component tree of a depth-`d` tree of tuple
leaves — every tuple leaf replaced by its `j`-th element.  Reference
definition used to state what `unzip` returns. -/
def projTree {γ : Type} : Nat → Nat → NTree γ → NTree γ
  | 0, j, t => (childrenD t).getD j default
  | _ + 1, _, .leaf x => .leaf x
  | d + 1, j, .node cs => .node (cs.map (projTree d j))

/-- Zip a list of depth-`d` trees into one depth-`d` tree of tuple leaves
(the structural inverse the specification describes for `unzip`). -/
def rezip {γ : Type} : Nat → List (NTree γ) → NTree γ
  | 0, ts => .node ts
  | d + 1, ts => .node ((transposeMin (ts.map childrenD)).map (rezip d))

/-- The `k` component trees of a depth-`d` tree of `k`-tuple leaves. -/
def comps {γ : Type} (d k : Nat) (t : NTree γ) : List (NTree γ) :=
  (List.range k).map (fun j => projTree d j t)

/-! ## Uniform result accessor (`default_getter`, combo_runner.py 87-105) -/

/-- Python exceptions relevant to the result accessor. -/
inductive PyErr where
  | attributeError (attr : String)
  | valueError (msg : String)
  | otherError (msg : String)
  deriving Repr, DecidableEq

/-- A pool-produced leaf object as the accessor sees it: it may or may not
expose a future-style `result()` and a get-style `get()`, and an exposed
accessor may itself return a value or raise. -/
structure PyObj (β : Type) where
  result : Option (Except PyErr β)
  get : Option (Except PyErr β)

/-- Calling `obj.attr()`: a missing member raises `AttributeError`,
otherwise the member's own outcome is returned. -/
def callAttr {β : Type} (member : Option (Except PyErr β)) (attrName : String) :
    Except PyErr β :=
  match member with
  | none => .error (.attributeError attrName)
  | some r => r

def isAttributeError : PyErr → Bool
  | .attributeError _ => true
  | _ => false

/-- Embedding of the getter closure built by `default_getter`:
`try: res = future.result() except AttributeError: res = future.get()`.
Only `AttributeError` triggers the fallback; errors of the second attempt
surface unmodified.  (The progress-bar update of the `pbar` variant is a
side effect with no value content and is not modelled.) -/
def default_getter {β : Type} (future : PyObj β) : Except PyErr β :=
  match callAttr future.result "result" with
  | .ok res => .ok res
  | .error e =>
    if isAttributeError e then callAttr future.get "get" else .error e

/-! ## Backend dispatcher (`_combo_runner`, combo_runner.py 126-185)

Pure-value model: a backend that is handed a submitted or deferred call
`fn(**kwds)` is assumed to eventually perform exactly that call, so
`future.result()`, `future.get()`, the distributed stored-result channel and
`dask.compute` all yield `fn kwds` (`resolveLeaf`).  Progress-bar driving
and the completion-order drain loops have no value content and are not
modelled; result placement always goes through `nested_get`/`compute` on
the submission-ordered tree, as in the source. -/

/-- Resolve one pending-work leaf to its concrete value. -/
def resolveLeaf {α β : Type} (fn : Kwds α → β) : PLeaf α β → β
  | .value b => b
  | .future k => fn k
  | .deferred k => fn k

/-- Modelled from the spec: the named scheduler strategies that
`dask_scheduler_get` (module `gen/dask_stuff.py`, not under `src/`)
recognizes.  The spec says only that a named strategy string must resolve to
a concrete graph-evaluation strategy and gives `"z"` as an unrecognized
example; the usual dask strategy names are used here. -/
def dask_scheduler_names : List String :=
  ["sync", "synchronous", "single-threaded", "threads", "threading",
   "threaded", "processes", "multiprocessing", "distributed"]

/-- Modelled from the spec: `dask_scheduler_get(scheduler, num_workers)`
resolves a named scheduler strategy; an unrecognized name is a
configuration error (`ValueError`), raised before anything is computed. -/
def dask_scheduler_get (s : String) : Except Err Unit :=
  if dask_scheduler_names.contains s then .ok () else .error (.badScheduler s)

/-- The `parallel` argument: `False`, `True`, `'mpi'` or `'dask'`. -/
inductive Parallel where
  | off
  | on
  | mpi
  | dask
  deriving Repr, DecidableEq

/-- The `scheduler` argument: absent, a strategy name string, or an
already-concrete strategy object. -/
inductive SchedArg where
  | noArg
  | strName (s : String)
  | concrete
  deriving Repr, DecidableEq

/-- Python truthiness of the `scheduler` argument (an empty string is
falsy). -/
def SchedArg.truthy : SchedArg → Bool
  | .noArg => false
  | .strName s => !(s == "")
  | .concrete => true

/-- The `pool` argument: absent, a pool with a `scheduler` attribute
(dask.distributed style), or a generic submit-style pool. -/
inductive PoolArg where
  | noPool
  | distributedStyle
  | genericStyle
  deriving Repr, DecidableEq

/-- Python truthiness of the `num_workers` argument (`0` is falsy). -/
def numWorkersTruthy : Option Nat → Bool
  | none => false
  | some n => !(n == 0)

/-- The execution-configuration arguments of `_combo_runner` that influence
backend dispatch. -/
structure RunCfg where
  parallel : Parallel := .off
  num_workers : Option Nat := none
  scheduler : SchedArg := .noArg
  pool : PoolArg := .noPool
  deriving Repr, DecidableEq

/-- Pooled-backend pipeline shared by the caller-supplied-pool, MPI and
process-pool branches: submit in pooled mode, then collect with
`nested_get` at `ndim = len(combos)`; a shape/type failure inside
`nested_get` is a dynamic `TypeError`. -/
def pooledPipeline {α β : Type} (fn : Kwds α → β)
    (combos : List (String × List α)) (constants : Kwds α) :
    Except Err (NTree β) := do
  let futures ← nested_submit fn combos constants false true
  match nested_get (resolveLeaf fn) futures (combos.length : Int) with
  | some r => .ok r
  | none => .error .typeError

/-- Embedding of `_combo_runner(fn, combos, constants, ...)` without the
final `split` step, following the source's dispatch precedence:
caller-supplied pool, then `parallel == 'mpi'`, then
`parallel == 'dask' or scheduler`, then `parallel or num_workers`, then
sequential. -/
def _combo_runner {α β : Type} (fn : Kwds α → β)
    (combos : List (String × List α)) (constants : Kwds α) (cfg : RunCfg) :
    Except Err (NTree β) :=
  match cfg.pool with
  | .distributedStyle =>
    -- the as_completed drain stores each future's result as it arrives;
    -- try_stored_then_result (gen/dask_stuff.py, not under src/, modelled
    -- from the spec) then reads the stored value during nested_get.
    pooledPipeline fn combos constants
  | .genericStyle => pooledPipeline fn combos constants
  | .noPool =>
    if cfg.parallel = .mpi then
      pooledPipeline fn combos constants
    else if cfg.parallel = .dask || cfg.scheduler.truthy then do
      let jobs ← nested_submit fn combos constants true false
      match (match cfg.scheduler with
             | .strName s =>
               if s == "" then Except.ok () else dask_scheduler_get s
             | _ => Except.ok ()) with
      | .error e => .error e
      | .ok _ =>
        -- compute(*jobs, ...): evaluate every deferred node, keeping the
        -- nested structure.
        .ok (treeMap (resolveLeaf fn) jobs)
    else if cfg.parallel = .on || numWorkersTruthy cfg.num_workers then
      pooledPipeline fn combos constants
    else do
      -- sequential: leaves are already concrete values; treeMap here only
      -- unwraps the PLeaf.value constructor of the typed embedding.
      let results ← nested_submit fn combos constants false false
      .ok (treeMap (resolveLeaf fn) results)

mutual

/-- Graft a tree of trees (typed embedding of a nested list whose leaves are
Python tuples, the tuples given as inner trees). -/
def treeJoin {γ : Type} : NTree (NTree γ) → NTree γ
  | .leaf t => t
  | .node cs => .node (treeJoinMany cs)

/-- Apply `treeJoin` to each element of a list. -/
def treeJoinMany {γ : Type} : List (NTree (NTree γ)) → List (NTree γ)
  | [] => []
  | c :: cs => treeJoin c :: treeJoinMany cs

end

/-- The `split=True` variant of `_combo_runner`: the same pipeline followed
by `list(unzip(results, ndim))`, for a function returning a tuple of
values. -/
def _combo_runner_split {α γ : Type} (fn : Kwds α → List γ)
    (combos : List (String × List α)) (constants : Kwds α) (cfg : RunCfg) :
    Except Err (NTree γ) := do
  let results ←
    _combo_runner (fun k => NTree.node ((fn k).map NTree.leaf)) combos
      constants cfg
  match unzip (treeJoin results) combos.length with
  | some r => .ok r
  | none => .error .typeError

/-- The six execution paths of the dispatcher. -/
inductive BackendPath where
  | sequential
  | processPool
  | daskGraph
  | genericPool
  | distributedPool
  | mpiPool
  deriving Repr, DecidableEq

/-- A canonical configuration selecting each execution path. -/
def pathConfig : BackendPath → RunCfg
  | .sequential => {}
  | .processPool => { parallel := .on, num_workers := some 2 }
  | .daskGraph => { parallel := .dask }
  | .genericPool => { pool := .genericStyle }
  | .distributedPool => { pool := .distributedStyle }
  | .mpiPool => { parallel := .mpi, num_workers := some 2 }

/-- Value of a runner result at a logical index (`none` when the call
errored or the index is out of range). -/
def resultAt {β : Type} (r : Except Err (NTree β)) (ix : List Nat) :
    Option β :=
  match r with
  | .ok t => treeGet t ix
  | .error _ => none

/-- The test function `foo3_scalar(a, b, c) = a + b + c` of the repository's
test suite, reading its three keyword arguments. -/
def foo3_scalar (k : Kwds Int) : Int :=
  ((lookupKw k "a").getD 0) + ((lookupKw k "b").getD 0) + ((lookupKw k "c").getD 0)

/-- The leaf `nested_submit` builds from fully merged call kwargs, by mode:
pooled submissions take precedence over deferred wrapping, otherwise the
call happens directly. -/
def mkLeaf {α β : Type} (fn : Kwds α → β) (delay pool : Bool) (k : Kwds α) :
    PLeaf α β :=
  if pool then .future k else if delay then .deferred k else .value (fn k)

/-! ## Helper lemmas -/

theorem mapM_except_ok {σ β ε : Type} {f : σ → Except ε β} {g : σ → β} :
    ∀ l : List σ, (∀ x ∈ l, f x = .ok (g x)) → l.mapM f = .ok (l.map g) := by
  intro l
  induction l with
  | nil => intro _; rfl
  | cons x xs ih =>
    intro h
    rw [List.mapM_cons, h x (by simp), ih (fun y hy => h y (by simp [hy]))]
    rfl

theorem mapM_except_error_head {σ β ε : Type} {f : σ → Except ε β} {x : σ}
    {l : List σ} {e : ε} (h : f x = .error e) : (x :: l).mapM f = .error e := by
  rw [List.mapM_cons, h]
  rfl

theorem mapM_option_some {σ β : Type} {f : σ → Option β} {g : σ → β} :
    ∀ l : List σ, (∀ x ∈ l, f x = some (g x)) → l.mapM f = some (l.map g) := by
  intro l
  induction l with
  | nil => intro _; rfl
  | cons x xs ih =>
    intro h
    rw [List.mapM_cons, h x (by simp), ih (fun y hy => h y (by simp [hy]))]
    rfl

theorem mapM_option_some_map {σ τ β : Type} {h : σ → τ} {f : τ → Option β}
    {g : σ → β} :
    ∀ l : List σ, (∀ x ∈ l, f (h x) = some (g x)) →
      (l.map h).mapM f = some (l.map g) := by
  intro l
  induction l with
  | nil => intro _; rfl
  | cons x xs ih =>
    intro hfg
    rw [List.map_cons, List.mapM_cons, hfg x (by simp),
      ih (fun y hy => hfg y (by simp [hy]))]
    rfl

theorem flatMap_congr_mem {σ τ : Type} {f g : σ → List τ} :
    ∀ l : List σ, (∀ x ∈ l, f x = g x) → l.flatMap f = l.flatMap g := by
  intro l
  induction l with
  | nil => intro _; rfl
  | cons x xs ih =>
    intro h
    simp only [List.flatMap_cons, h x (by simp),
      ih (fun y hy => h y (by simp [hy]))]

theorem flatMap_pure_eq_map {σ τ : Type} (f : σ → τ) :
    ∀ l : List σ, (l.flatMap fun x => [f x]) = l.map f := by
  intro l
  induction l with
  | nil => rfl
  | cons x xs ih => simp [List.flatMap_cons, ih]

/-- Keys never disappear under `dictInsert`. -/
theorem containsKey_dictInsert_of {α : Type} {d : Kwds α} {b : String}
    (a : String) (v : α) (h : containsKey d b = true) :
    containsKey (dictInsert d a v) b = true := by
  unfold dictInsert
  by_cases hd : containsKey d a
  · rw [if_pos hd]
    unfold containsKey at h ⊢
    rw [List.any_eq_true] at h ⊢
    obtain ⟨p, hp, hpb⟩ := h
    refine ⟨_, List.mem_map_of_mem _ hp, ?_⟩
    by_cases hpa : (p.1 == a) = true
    · have h1 : p.1 = a := by simpa using hpa
      have h2 : p.1 = b := by simpa using hpb
      have hab : a = b := h1.symm.trans h2
      rw [if_pos hpa]
      simp [hab]
    · simp only [Bool.not_eq_true] at hpa
      simpa [hpa] using hpb
  · rw [if_neg hd]
    unfold containsKey at h ⊢
    simp [List.any_append, h]

/-- The update `dictInsert` creates no key other than the inserted one. -/
theorem containsKey_dictInsert_ne {α : Type} {d : Kwds α} {a b : String}
    (v : α) (h : containsKey d b = false) (hab : a ≠ b) :
    containsKey (dictInsert d a v) b = false := by
  unfold dictInsert
  by_cases hd : containsKey d a
  · rw [if_pos hd]
    unfold containsKey at h ⊢
    rw [List.any_eq_false] at h ⊢
    intro p hp
    rw [List.mem_map] at hp
    obtain ⟨q, hq, rfl⟩ := hp
    by_cases hqa : (q.1 == a) = true
    · simpa [hqa] using hab
    · simp only [Bool.not_eq_true] at hqa
      simpa [hqa] using h q hq
  · rw [if_neg hd]
    unfold containsKey at h ⊢
    simp [List.any_append, h, hab]

/-- Last write wins: after `{**d, a: v}` the value at key `a` is `v`. -/
theorem lookupKw_dictInsert {α : Type} (d : Kwds α) (a : String) (v : α) :
    lookupKw (dictInsert d a v) a = some v := by
  unfold dictInsert
  by_cases hd : containsKey d a
  · rw [if_pos hd]
    induction d with
    | nil => simp [containsKey] at hd
    | cons q qs ih =>
      by_cases hqa : (q.1 == a) = true
      · simp [lookupKw, hqa]
      · have hd' : containsKey qs a = true := by
          unfold containsKey at hd ⊢
          simpa [hqa] using hd
        have hqa' : (q.1 == a) = false := by simpa using hqa
        simpa [lookupKw, hqa'] using ih hd'
  · rw [if_neg hd]
    induction d with
    | nil => simp [lookupKw]
    | cons q qs ih =>
      unfold containsKey at hd
      simp only [List.any_cons, Bool.or_eq_true, not_or, Bool.not_eq_true] at hd
      simp only [List.cons_append, lookupKw, hd.1, if_false]
      exact ih (by unfold containsKey; simp [hd.2])

theorem treeMapMany_eq_map {γ δ : Type} (g : γ → δ) :
    ∀ cs : List (NTree γ), treeMapMany g cs = cs.map (treeMap g) := by
  intro cs
  induction cs with
  | nil => rfl
  | cons c cs ih => simp [treeMapMany, ih]

theorem leavesMany_map {σ γ : Type} (f : σ → NTree γ) :
    ∀ xs : List σ,
      leavesMany (xs.map f) = xs.flatMap (fun x => leavesList (f x)) := by
  intro xs
  induction xs with
  | nil => rfl
  | cons x xs ih => simp [leavesMany, ih]

theorem hasShapeAll_map {σ γ : Type} (f : σ → NTree γ) (ns : List Nat) :
    ∀ xs : List σ,
      hasShapeAll (xs.map f) ns = xs.all (fun x => hasShape (f x) ns) := by
  intro xs
  induction xs with
  | nil => rfl
  | cons x xs ih => simp [hasShapeAll, ih]

theorem nested_getMany_eq_mapM {γ δ : Type} (g : γ → δ) (n : Int) :
    ∀ fs : List (NTree γ),
      nested_getMany g fs n = fs.mapM (fun f => nested_get g f n) := by
  intro fs
  induction fs with
  | nil => rfl
  | cons f fs ih =>
    rw [List.mapM_cons, ← ih]
    rfl

/-! ## Characterization of `nested_submit` -/

/-- When the innermost argument name collides with no accumulated keyword
(which the spec's disjointness and uniqueness invariants guarantee),
`nested_submit` succeeds and produces exactly `buildTree` of its mode's
leaf constructor. -/
theorem nested_submit_eq_ok {α β : Type} (fn : Kwds α → β) (delay pool : Bool) :
    ∀ (combos : List (String × List α)) (kwds : Kwds α) (lastArg : String),
      (combos.map Prod.fst).getLast? = some lastArg →
      containsKey kwds lastArg = false →
      lastArg ∉ combos.dropLast.map Prod.fst →
      nested_submit fn combos kwds delay pool =
        .ok (buildTree (mkLeaf fn delay pool) combos kwds) := by
  intro combos
  induction combos with
  | nil => intro kwds lastArg h; simp at h
  | cons hd tl ih =>
    intro kwds lastArg hlast hkw hdrop
    match hd, tl with
    | (arg, inputs), [] =>
      simp only [List.map_cons, List.map_nil, List.getLast?_singleton,
        Option.some.injEq] at hlast
      subst hlast
      simp only [nested_submit]
      rw [mapM_except_ok inputs
        (g := fun x => NTree.leaf (mkLeaf fn delay pool (kwds ++ [(arg, x)])))]
      · rfl
      · intro x _
        unfold call_kwargs
        rw [if_neg (by simp [hkw])]
        rfl
    | (arg, inputs), c :: cs =>
      have hlast' : ((c :: cs).map Prod.fst).getLast? = some lastArg := by
        simp only [List.map_cons] at hlast ⊢
        rw [List.getLast?_cons_cons] at hlast
        exact hlast
      have hne_arg : arg ≠ lastArg := by
        intro h
        apply hdrop
        rw [List.dropLast_cons₂, List.map_cons]
        exact h ▸ List.mem_cons_self arg _
      have hdrop' : lastArg ∉ (c :: cs).dropLast.map Prod.fst := by
        intro h
        apply hdrop
        rw [List.dropLast_cons₂, List.map_cons]
        exact List.mem_cons_of_mem _ h
      simp only [nested_submit]
      rw [mapM_except_ok inputs
        (g := fun x =>
          buildTree (mkLeaf fn delay pool) (c :: cs) (dictInsert kwds arg x))]
      · rfl
      · intro x _
        exact ih (dictInsert kwds arg x) lastArg hlast'
          (containsKey_dictInsert_ne x hkw hne_arg) hdrop'

/-- The tree built over a non-empty combination list is an exact
Cartesian grid: dimension `i` has the length of the `i`-th value list. -/
theorem buildTree_hasShape {α γ : Type} (leafF : Kwds α → γ) :
    ∀ (combos : List (String × List α)) (kwds : Kwds α), combos ≠ [] →
      hasShape (buildTree leafF combos kwds)
        (combos.map (fun e => e.2.length)) = true := by
  intro combos
  induction combos with
  | nil => intro kwds h; exact absurd rfl h
  | cons hd tl ih =>
    intro kwds _
    match hd, tl with
    | (arg, inputs), [] =>
      simp only [buildTree, List.map_cons, List.map_nil, hasShape]
      rw [hasShapeAll_map]
      simp [hasShape]
    | (arg, inputs), c :: cs =>
      simp only [buildTree, List.map_cons, hasShape]
      rw [hasShapeAll_map]
      simp only [List.length_map, beq_self_eq_true, Bool.true_and]
      rw [List.all_eq_true]
      intro x _
      exact ih (dictInsert kwds arg x) (by simp)

/-- The leaves of the built tree enumerate the row-major assignment list. -/
theorem buildTree_leaves {α γ : Type} (leafF : Kwds α → γ) :
    ∀ (combos : List (String × List α)) (kwds : Kwds α), combos ≠ [] →
      leavesList (buildTree leafF combos kwds) =
        (assignments combos kwds).map leafF := by
  intro combos
  induction combos with
  | nil => intro kwds h; exact absurd rfl h
  | cons hd tl ih =>
    intro kwds _
    match hd, tl with
    | (arg, inputs), [] =>
      simp only [buildTree, assignments, leavesList]
      rw [leavesMany_map]
      simp only [leavesList]
      rw [flatMap_pure_eq_map]
      simp [List.map_map, Function.comp]
    | (arg, inputs), c :: cs =>
      simp only [buildTree, assignments, leavesList]
      rw [leavesMany_map, List.map_flatMap]
      apply flatMap_congr_mem
      intro x _
      exact ih (dictInsert kwds arg x) (by simp)

/-- Mapping over leaves fuses with building the tree. -/
theorem treeMap_buildTree {α γ δ : Type} (g : γ → δ) (leafF : Kwds α → γ) :
    ∀ (combos : List (String × List α)) (kwds : Kwds α),
      treeMap g (buildTree leafF combos kwds) =
        buildTree (fun k => g (leafF k)) combos kwds := by
  intro combos
  induction combos with
  | nil => intro kwds; rfl
  | cons hd tl ih =>
    intro kwds
    match hd, tl with
    | (arg, inputs), [] =>
      simp [buildTree, treeMap, treeMapMany_eq_map, List.map_map,
        Function.comp]
    | (arg, inputs), c :: cs =>
      simp only [buildTree, treeMap, treeMapMany_eq_map, List.map_map,
        NTree.node.injEq]
      apply List.map_congr_left
      intro x _
      exact ih (dictInsert kwds arg x)

/-- Collecting a built pending-work tree at `ndim` equal to the
combination-list length succeeds and applies the getter to every leaf. -/
theorem nested_get_buildTree {α γ δ : Type} (g : γ → δ) (leafF : Kwds α → γ) :
    ∀ (combos : List (String × List α)) (kwds : Kwds α), combos ≠ [] →
      nested_get g (buildTree leafF combos kwds) (combos.length : Int) =
        some (buildTree (fun k => g (leafF k)) combos kwds) := by
  intro combos
  induction combos with
  | nil => intro kwds h; exact absurd rfl h
  | cons hd tl ih =>
    intro kwds _
    match hd, tl with
    | (arg, inputs), [] =>
      simp only [buildTree, List.length_cons, List.length_nil, Nat.zero_add,
        Nat.cast_one, nested_get]
      rw [if_pos trivial]
      rw [mapM_option_some_map inputs
        (h := fun x => NTree.leaf (leafF (kwds ++ [(arg, x)])))
        (f := getLeaf1 g)
        (g := fun x => NTree.leaf (g (leafF (kwds ++ [(arg, x)]))))
        (fun x _ => rfl)]
      rfl
    | (arg, inputs), c :: cs =>
      have hne1 : ¬(((cs.length + 1 + 1 : Nat) : Int) = 1) := by
        push_cast
        omega
      simp only [buildTree, List.length_cons, nested_get]
      rw [if_neg hne1]
      rw [nested_getMany_eq_mapM]
      have harith : ((cs.length + 1 + 1 : Nat) : Int) - 1 =
          (((c :: cs).length : Nat) : Int) := by
        simp only [List.length_cons]
        push_cast
        omega
      rw [harith]
      rw [mapM_option_some_map inputs
        (g := fun x =>
          buildTree (fun k => g (leafF k)) (c :: cs) (dictInsert kwds arg x))
        (fun x _ => ih (dictInsert kwds arg x) (by simp))]
      rfl

/-- Each backend mode's leaf resolves to the direct call's value. -/
theorem resolve_mkLeaf {α β : Type} (fn : Kwds α → β) (delay pool : Bool)
    (k : Kwds α) : resolveLeaf fn (mkLeaf fn delay pool k) = fn k := by
  cases pool <;> cases delay <;> rfl

theorem eq_leaf_of_hasShape_nil {γ : Type} :
    ∀ t : NTree γ, hasShape t [] = true → ∃ x, t = NTree.leaf x := by
  intro t
  cases t with
  | leaf x => intro _; exact ⟨x, rfl⟩
  | node cs => intro h; simp [hasShape] at h

theorem hasShapeAll_forall {γ : Type} {ns : List Nat} :
    ∀ {cs : List (NTree γ)}, hasShapeAll cs ns = true →
      ∀ c ∈ cs, hasShape c ns = true := by
  intro cs
  induction cs with
  | nil => intro _ c hc; cases hc
  | cons c0 cs ih =>
    intro h c hc
    rw [hasShapeAll, Bool.and_eq_true] at h
    rcases List.mem_cons.mp hc with rfl | hc
    · exact h.1
    · exact ih h.2 c hc

theorem forall_hasShapeAll {γ : Type} {ns : List Nat} :
    ∀ {cs : List (NTree γ)}, (∀ c ∈ cs, hasShape c ns = true) →
      hasShapeAll cs ns = true := by
  intro cs
  induction cs with
  | nil => intro _; rfl
  | cons c0 cs ih =>
    intro h
    rw [hasShapeAll, Bool.and_eq_true]
    exact ⟨h c0 (by simp), ih (fun c hc => h c (by simp [hc]))⟩

mutual

theorem leavesList_treeMap {γ δ : Type} (g : γ → δ) :
    ∀ t : NTree γ, leavesList (treeMap g t) = (leavesList t).map g
  | .leaf x => rfl
  | .node cs => by
    simp only [treeMap, leavesList]
    exact leavesMany_treeMapMany g cs

theorem leavesMany_treeMapMany {γ δ : Type} (g : γ → δ) :
    ∀ cs : List (NTree γ),
      leavesMany (treeMapMany g cs) = (leavesMany cs).map g
  | [] => rfl
  | c :: cs => by
    simp only [treeMapMany, leavesMany, List.map_append]
    rw [leavesList_treeMap g c, leavesMany_treeMapMany g cs]

end

/-- The map `treeMap` preserves the grid shape. -/
theorem hasShape_treeMap {γ δ : Type} (g : γ → δ) :
    ∀ (ns : List Nat) (t : NTree γ), hasShape t ns = true →
      hasShape (treeMap g t) ns = true := by
  intro ns
  induction ns with
  | nil =>
    intro t ht
    obtain ⟨x, rfl⟩ := eq_leaf_of_hasShape_nil t ht
    rfl
  | cons n ns ih =>
    intro t ht
    cases t with
    | leaf x => simp [hasShape] at ht
    | node cs =>
      rw [hasShape, Bool.and_eq_true] at ht
      rw [treeMap, treeMapMany_eq_map, hasShape, Bool.and_eq_true]
      constructor
      · simpa using ht.1
      · rw [hasShapeAll_map, List.all_eq_true]
        exact fun c hc => ih c (hasShapeAll_forall ht.2 c hc)

/-- On a grid of shape `ns`, collecting at `ndim = ns.length` succeeds and
applies the getter to every leaf in place. -/
theorem nested_get_eq_treeMap {γ δ : Type} (g : γ → δ) :
    ∀ (ns : List Nat) (t : NTree γ), ns ≠ [] → hasShape t ns = true →
      nested_get g t (ns.length : Int) = some (treeMap g t) := by
  intro ns
  induction ns with
  | nil => intro t h; exact absurd rfl h
  | cons n ns ih =>
    intro t _ ht
    cases t with
    | leaf x => simp [hasShape] at ht
    | node cs =>
      rw [hasShape, Bool.and_eq_true] at ht
      match ns, ih with
      | [], _ =>
        simp only [List.length_cons, List.length_nil, Nat.zero_add,
          Nat.cast_one, nested_get]
        rw [if_pos trivial]
        rw [mapM_option_some cs (g := treeMap g) (fun c hc => by
          obtain ⟨x, rfl⟩ := eq_leaf_of_hasShape_nil c
            (hasShapeAll_forall ht.2 c hc)
          rfl)]
        rw [treeMap, treeMapMany_eq_map]
        rfl
      | m :: ns', ih =>
        have hne1 : ¬(((ns'.length + 1 + 1 : Nat) : Int) = 1) := by
          push_cast
          omega
        simp only [List.length_cons, nested_get]
        rw [if_neg hne1]
        rw [nested_getMany_eq_mapM]
        have harith : ((ns'.length + 1 + 1 : Nat) : Int) - 1 =
            (((m :: ns').length : Nat) : Int) := by
          simp only [List.length_cons]
          push_cast
          omega
        rw [harith]
        rw [mapM_option_some cs (g := treeMap g) (fun c hc =>
          ih c (by simp) (hasShapeAll_forall ht.2 c hc))]
        rw [treeMap, treeMapMany_eq_map]
        rfl

/-- A grid of shape `ns` has exactly `ns.prod` leaves. -/
theorem leaves_length_of_hasShape {γ : Type} :
    ∀ (ns : List Nat) (t : NTree γ), hasShape t ns = true →
      (leavesList t).length = ns.prod := by
  intro ns
  induction ns with
  | nil =>
    intro t ht
    obtain ⟨x, rfl⟩ := eq_leaf_of_hasShape_nil t ht
    rfl
  | cons n ns ih =>
    intro t ht
    cases t with
    | leaf x => simp [hasShape] at ht
    | node cs =>
      rw [hasShape, Bool.and_eq_true] at ht
      have hlen : cs.length = n := by simpa using ht.1
      have hmem := hasShapeAll_forall ht.2
      rw [leavesList]
      have : ∀ cs' : List (NTree γ), (∀ c ∈ cs', hasShape c ns = true) →
          (leavesMany cs').length = cs'.length * ns.prod := by
        intro cs'
        induction cs' with
        | nil => intro _; simp [leavesMany]
        | cons c0 cs' ih2 =>
          intro h
          rw [leavesMany, List.length_append, ih2 (fun c hc => h c (by simp [hc])),
            ih c0 (h c0 (by simp))]
          simp only [List.length_cons]
          ring
      rw [this cs hmem, hlen, List.prod_cons]

/-! ## Characterization of the dispatcher -/

/-- Under the spec's invariants, every execution path produces the same
fully evaluated Cartesian tree `buildTree fn combos constants`. -/
theorem combo_runner_path_eq {α β : Type} (fn : Kwds α → β) (p : BackendPath)
    (combos : List (String × List α)) (constants : Kwds α) (lastArg : String)
    (hlast : (combos.map Prod.fst).getLast? = some lastArg)
    (hkw : containsKey constants lastArg = false)
    (hdrop : lastArg ∉ combos.dropLast.map Prod.fst) :
    _combo_runner fn combos constants (pathConfig p) =
      .ok (buildTree fn combos constants) := by
  have hne : combos ≠ [] := by
    rintro rfl
    simp at hlast
  have hsub := fun delay pool =>
    nested_submit_eq_ok fn delay pool combos constants lastArg hlast hkw hdrop
  have hpooled : pooledPipeline fn combos constants =
      .ok (buildTree fn combos constants) := by
    unfold pooledPipeline
    rw [hsub false true]
    show (match nested_get (resolveLeaf fn)
        (buildTree (mkLeaf fn false true) combos constants)
        (combos.length : Int) with
      | some r => Except.ok r
      | none => Except.error Err.typeError) = _
    rw [nested_get_buildTree (resolveLeaf fn) (mkLeaf fn false true) combos
      constants hne]
    rfl
  cases p with
  | sequential =>
    show (nested_submit fn combos constants false false).bind _ = _
    rw [hsub false false]
    show Except.ok (treeMap (resolveLeaf fn)
      (buildTree (mkLeaf fn false false) combos constants)) = _
    rw [treeMap_buildTree]
    rfl
  | processPool => exact hpooled
  | genericPool => exact hpooled
  | distributedPool => exact hpooled
  | mpiPool => exact hpooled
  | daskGraph =>
    show (nested_submit fn combos constants true false).bind _ = _
    rw [hsub true false]
    show Except.ok (treeMap (resolveLeaf fn)
      (buildTree (mkLeaf fn true false) combos constants)) = _
    rw [treeMap_buildTree]
    rfl

/-- When the innermost argument name is already an accumulated keyword and
every value sequence is non-empty, `nested_submit` raises the
duplicate-keyword error in every mode. -/
theorem nested_submit_duplicate {α β : Type} (fn : Kwds α → β)
    (delay pool : Bool) :
    ∀ (combos : List (String × List α)) (kwds : Kwds α) (lastArg : String),
      (combos.map Prod.fst).getLast? = some lastArg →
      containsKey kwds lastArg = true →
      (∀ e ∈ combos, e.2 ≠ []) →
      nested_submit fn combos kwds delay pool =
        .error (.duplicateKwarg lastArg) := by
  intro combos
  induction combos with
  | nil => intro kwds lastArg h; simp at h
  | cons hd tl ih =>
    intro kwds lastArg hlast hkw hvals
    match hd, tl with
    | (arg, inputs), [] =>
      simp only [List.map_cons, List.map_nil, List.getLast?_singleton,
        Option.some.injEq] at hlast
      subst hlast
      have hinputs : inputs ≠ [] := by simpa using hvals (arg, inputs) (by simp)
      match inputs, hinputs with
      | [], hin => exact absurd rfl hin
      | x :: xs, _ =>
        simp only [nested_submit]
        rw [mapM_except_error_head (x := x)
          (e := Err.duplicateKwarg arg) (by
            unfold call_kwargs
            rw [if_pos hkw]
            rfl)]
        rfl
    | (arg, inputs), c :: cs =>
      have hlast' : ((c :: cs).map Prod.fst).getLast? = some lastArg := by
        simp only [List.map_cons] at hlast ⊢
        rw [List.getLast?_cons_cons] at hlast
        exact hlast
      have hinputs : inputs ≠ [] := by simpa using hvals (arg, inputs) (by simp)
      match inputs, hinputs with
      | [], hin => exact absurd rfl hin
      | x :: xs, _ =>
        simp only [nested_submit]
        rw [mapM_except_error_head (x := x)
          (e := Err.duplicateKwarg lastArg)
          (ih (dictInsert kwds arg x) lastArg hlast'
            (containsKey_dictInsert_of arg x hkw)
            (fun e he => hvals e (by simp [he])))]
        rfl

/-- With an unrecognized scheduler name and no caller-supplied pool, the
dispatcher reaches the deferred-graph branch (for any non-MPI `parallel`
value) and fails with the configuration error before computing anything. -/
theorem combo_runner_badSched {α β : Type} (fn : Kwds α → β)
    (par : Parallel) (nw : Option Nat) (s : String)
    (combos : List (String × List α)) (constants : Kwds α) (lastArg : String)
    (hpar : par ≠ .mpi)
    (hs : dask_scheduler_names.contains s = false) (hs0 : s ≠ "")
    (hlast : (combos.map Prod.fst).getLast? = some lastArg)
    (hkw : containsKey constants lastArg = false)
    (hdrop : lastArg ∉ combos.dropLast.map Prod.fst) :
    _combo_runner fn combos constants
      { parallel := par, num_workers := nw, scheduler := .strName s,
        pool := .noPool } = .error (.badScheduler s) := by
  have hsub := nested_submit_eq_ok fn true false combos constants lastArg
    hlast hkw hdrop
  have htruthy : SchedArg.truthy (.strName s) = true := by
    simp [SchedArg.truthy, hs0]
  unfold _combo_runner
  rw [if_neg (by simpa using hpar)]
  rw [if_pos (by simp [htruthy])]
  rw [hsub]
  show (match (if (s == "") = true then Except.ok () else dask_scheduler_get s)
    with
    | .error e => Except.error e
    | .ok _ => Except.ok (treeMap (resolveLeaf fn)
        (buildTree (mkLeaf fn true false) combos constants))) = _
  rw [if_neg (by simpa using hs0)]
  unfold dask_scheduler_get
  rw [if_neg (by
    intro hc
    rw [hs] at hc
    exact absurd hc Bool.false_ne_true)]

/-! ## Correctness of `unzip` -/

theorem minLen_uniform {γ : Type} {k : Nat} :
    ∀ css : List (List γ), css ≠ [] → (∀ cs ∈ css, cs.length = k) →
      minLen css = k := by
  intro css
  match css with
  | [] => intro h; exact absurd rfl h
  | cs :: css' =>
    intro _ hall
    rw [minLen, hall cs (by simp)]
    have aux : ∀ l : List (List γ), (∀ ds ∈ l, ds.length = k) →
        l.foldl (fun m ds => Nat.min m ds.length) k = k := by
      intro l
      induction l with
      | nil => intro _; rfl
      | cons ds l ihl =>
        intro h
        rw [List.foldl_cons, h ds (by simp),
          show Nat.min k k = k from Nat.min_self k]
        exact ihl (fun d hd => h d (by simp [hd]))
    exact aux css' (fun ds hds => hall ds (by simp [hds]))

theorem minLen_le {γ : Type} :
    ∀ (l : List (List γ)) (x : List γ), x ∈ l → minLen l ≤ x.length := by
  have aux : ∀ (l : List (List γ)) (acc : Nat),
      (l.foldl (fun m ds => Nat.min m ds.length) acc ≤ acc) ∧
      (∀ x ∈ l, l.foldl (fun m ds => Nat.min m ds.length) acc ≤ x.length) := by
    intro l
    induction l with
    | nil => intro acc; exact ⟨Nat.le_refl acc, fun x hx => absurd hx (by simp)⟩
    | cons ds l ihl =>
      intro acc
      rw [List.foldl_cons]
      refine ⟨?_, ?_⟩
      · exact Nat.le_trans (ihl (Nat.min acc ds.length)).1 (Nat.min_le_left _ _)
      · intro x hx
        rcases List.mem_cons.mp hx with rfl | hx
        · exact Nat.le_trans (ihl (Nat.min acc x.length)).1 (Nat.min_le_right _ _)
        · exact (ihl (Nat.min acc ds.length)).2 x hx
  intro l x hx
  match l, hx with
  | cs :: css, hx =>
    rw [minLen]
    rcases List.mem_cons.mp hx with rfl | hx
    · exact (aux css x.length).1
    · exact (aux css cs.length).2 x hx

theorem minLen_congr {γ δ : Type} (f : List γ → List δ)
    (hf : ∀ x, (f x).length = x.length) :
    ∀ l : List (List γ), minLen (l.map f) = minLen l := by
  have aux : ∀ (l : List (List γ)) (acc : Nat),
      (l.map f).foldl (fun m ds => Nat.min m ds.length) acc =
        l.foldl (fun m ds => Nat.min m ds.length) acc := by
    intro l
    induction l with
    | nil => intro acc; rfl
    | cons ds l ihl =>
      intro acc
      rw [List.map_cons, List.foldl_cons, List.foldl_cons, hf]
      exact ihl _
  intro l
  match l with
  | [] => rfl
  | x :: xs =>
    rw [List.map_cons, minLen, minLen, hf]
    exact aux xs _

theorem getD_map_range {τ : Type} [Inhabited τ] (f : Nat → τ) {k j : Nat}
    (hj : j < k) : ((List.range k).map f).getD j default = f j := by
  rw [List.getD_eq_getElem?_getD, List.getElem?_map, List.getElem?_range hj]
  rfl

theorem getD_map_of_lt {σ τ : Type} [Inhabited σ] [Inhabited τ] (f : σ → τ)
    (l : List σ) {j : Nat} (hj : j < l.length) :
    (l.map f).getD j default = f (l.getD j default) := by
  rw [List.getD_eq_getElem?_getD, List.getD_eq_getElem?_getD,
    List.getElem?_map, List.getElem?_eq_getElem hj]
  rfl

theorem getD_mem_of_lt {σ : Type} [Inhabited σ] (l : List σ) {j : Nat}
    (hj : j < l.length) : l.getD j default ∈ l := by
  rw [List.getD_eq_getElem?_getD, List.getElem?_eq_getElem hj]
  exact List.getElem_mem hj

theorem map_getD_range_self {τ : Type} [Inhabited τ] (l : List τ) :
    (List.range l.length).map (fun j => l.getD j default) = l := by
  apply List.ext_getElem
  · simp
  · intro i h1 h2
    simp only [List.getElem_map, List.getElem_range]
    rw [List.getD_eq_getElem?_getD, List.getElem?_eq_getElem h2]
    rfl

/-- Python `zip(*its)` over a non-empty sequence of arity-`k` tuples: the
truncating transpose keeps exactly `k` columns. -/
theorem pyZipStar_uniform {γ : Type} {k : Nat} (cs : List (NTree γ))
    (hne : cs ≠ [])
    (hall : ∀ c ∈ cs, ∃ ds : List (NTree γ),
      c = NTree.node ds ∧ ds.length = k) :
    pyZipStar (NTree.node cs) =
      some (NTree.node ((List.range k).map (fun j =>
        NTree.node (cs.map (fun c => (childrenD c).getD j default))))) := by
  rw [pyZipStar]
  rw [mapM_option_some cs (g := childrenD) (fun c hc => by
    obtain ⟨ds, rfl, _⟩ := hall c hc
    rfl)]
  have hmin : minLen (cs.map childrenD) = k := by
    apply minLen_uniform
    · simpa using hne
    · intro l hl
      rw [List.mem_map] at hl
      obtain ⟨c, hc, rfl⟩ := hl
      obtain ⟨ds, rfl, hlen⟩ := hall c hc
      simpa using hlen
  simp only [Option.map_some', transposeMin, hmin, List.map_map,
    Function.comp]
  rfl

theorem unzip_pos {γ : Type} (t : NTree γ) {zl : Nat} (h : zl ≠ 0) :
    unzip t zl = (unzipper zl t).bind pyZipStar := by
  unfold unzip
  rw [if_pos h]

/-- Elimination for a grid with one level above the tuples. -/
theorem node_of_hasShape_cons {γ : Type} {t : NTree γ} {n : Nat}
    {ns : List Nat} (h : hasShape t (n :: ns) = true) :
    ∃ cs : List (NTree γ), t = NTree.node cs ∧ cs.length = n ∧
      ∀ c ∈ cs, hasShape c ns = true := by
  cases t with
  | leaf x => simp [hasShape] at h
  | node cs =>
    rw [hasShape, Bool.and_eq_true] at h
    exact ⟨cs, rfl, by simpa using h.1, hasShapeAll_forall h.2⟩

/-- On a positive grid of shape `ns ++ [k]` (`d = ns.length` levels of
nesting over arity-`k` tuple leaves), `unzip` at level `d` yields exactly
the `k` projection trees, in component order. -/
theorem unzip_grid {γ : Type} :
    ∀ (ns : List Nat) (k : Nat) (t : NTree γ), ns ≠ [] →
      (∀ n ∈ ns, 0 < n) →
      hasShape t (ns ++ [k]) = true →
      unzip t ns.length = some (.node (comps ns.length k t)) := by
  intro ns
  induction ns with
  | nil => intro k t h; exact absurd rfl h
  | cons n ns ih =>
    intro k t _ hpos hsh
    rw [List.cons_append] at hsh
    obtain ⟨cs, rfl, hlen, hall⟩ := node_of_hasShape_cons hsh
    have hcs_ne : cs ≠ [] := by
      have hn : 0 < n := hpos n (by simp)
      intro hnil
      rw [hnil] at hlen
      simp at hlen
      omega
    match ns, ih with
    | [], _ =>
      rw [unzip_pos _ (by simp)]
      show pyZipStar (NTree.node cs) = _
      rw [pyZipStar_uniform cs hcs_ne (fun c hc => by
        have h := hall c hc
        rw [List.nil_append] at h
        obtain ⟨ds, rfl, hdlen, _⟩ := node_of_hasShape_cons h
        exact ⟨ds, rfl, hdlen⟩)]
      rfl
    | m :: ns', ih =>
      rw [unzip_pos _ (by simp)]
      have hstep : unzipper (m :: ns').length.succ (NTree.node cs) =
          some (NTree.node (cs.map (fun c =>
            NTree.node (comps (m :: ns').length k c)))) := by
        show (cs.mapM (fun it =>
          (unzipper (m :: ns').length it).bind pyZipStar)).map NTree.node = _
        rw [mapM_option_some cs
          (g := fun c => NTree.node (comps (m :: ns').length k c))
          (fun c hc => by
            rw [← unzip_pos c (by simp)]
            exact ih k c (by simp) (fun n' hn' => hpos n' (by simp [hn']))
              (hall c hc))]
        rfl
      show (unzipper (m :: ns').length.succ (NTree.node cs)).bind pyZipStar = _
      rw [hstep]
      show pyZipStar (NTree.node (cs.map (fun c =>
        NTree.node (comps (m :: ns').length k c)))) = _
      rw [pyZipStar_uniform (k := k) (cs.map (fun c =>
          NTree.node (comps (m :: ns').length k c)))
        (by simpa using hcs_ne)
        (fun c' hc' => by
          rw [List.mem_map] at hc'
          obtain ⟨c, _, rfl⟩ := hc'
          exact ⟨comps (m :: ns').length k c, rfl, by simp [comps]⟩)]
      congr 1
      congr 1
      apply List.map_congr_left
      intro j hj
      rw [List.mem_range] at hj
      congr 1
      rw [List.map_map]
      apply List.map_congr_left
      intro c _
      show (comps (m :: ns').length k c).getD j default =
        projTree (m :: ns').length j c
      rw [comps, getD_map_range _ hj]

/-- Each projection of a tuple grid is a grid of the tuple-free shape. -/
theorem projTree_hasShape {γ : Type} :
    ∀ (ns : List Nat) (k j : Nat) (t : NTree γ), j < k →
      hasShape t (ns ++ [k]) = true →
      hasShape (projTree ns.length j t) ns = true := by
  intro ns
  induction ns with
  | nil =>
    intro k j t hj hsh
    rw [List.nil_append] at hsh
    obtain ⟨ds, rfl, hlen, hall⟩ := node_of_hasShape_cons hsh
    show hasShape ((childrenD (NTree.node ds)).getD j default) [] = true
    have hjd : j < ds.length := by omega
    exact hall _ (getD_mem_of_lt ds hjd)
  | cons n ns ih =>
    intro k j t hj hsh
    rw [List.cons_append] at hsh
    obtain ⟨cs, rfl, hlen, hall⟩ := node_of_hasShape_cons hsh
    show hasShape (NTree.node (cs.map (projTree ns.length j))) (n :: ns) = true
    rw [hasShape, Bool.and_eq_true]
    refine ⟨by simp [hlen], ?_⟩
    rw [hasShapeAll_map, List.all_eq_true]
    exact fun c hc => ih k j c hj (hall c hc)

/-- Zipping the projection trees back together reconstructs the original
tuple grid (for a positive tuple arity). -/
theorem rezip_comps {γ : Type} :
    ∀ (ns : List Nat) (k : Nat) (t : NTree γ), 0 < k →
      hasShape t (ns ++ [k]) = true →
      rezip ns.length (comps ns.length k t) = t := by
  intro ns
  induction ns with
  | nil =>
    intro k t hk hsh
    rw [List.nil_append] at hsh
    obtain ⟨ds, rfl, hlen, _⟩ := node_of_hasShape_cons hsh
    show NTree.node (comps 0 k (NTree.node ds)) = NTree.node ds
    congr 1
    subst hlen
    exact map_getD_range_self ds
  | cons n ns ih =>
    intro k t hk hsh
    rw [List.cons_append] at hsh
    obtain ⟨cs, rfl, hlen, hall⟩ := node_of_hasShape_cons hsh
    show NTree.node ((transposeMin
      ((comps (ns.length + 1) k (NTree.node cs)).map childrenD)).map
        (rezip ns.length)) = NTree.node cs
    congr 1
    have hrows : (comps (ns.length + 1) k (NTree.node cs)).map childrenD =
        (List.range k).map (fun j => cs.map (projTree ns.length j)) := by
      rw [comps, List.map_map]
      rfl
    rw [hrows]
    have hmin : minLen ((List.range k).map
        (fun j => cs.map (projTree ns.length j))) = cs.length := by
      apply minLen_uniform
      · intro hnil
        have hlk : ((List.range k).map
            (fun j => cs.map (projTree ns.length j))).length = k := by simp
        rw [hnil] at hlk
        simp at hlk
        omega
      · intro l hl
        rw [List.mem_map] at hl
        obtain ⟨j, _, rfl⟩ := hl
        simp
    rw [transposeMin, hmin, List.map_map]
    have hentries : ∀ i, i < cs.length →
        (((List.range k).map (fun j => cs.map (projTree ns.length j))).map
          (fun l => l.getD i default)) =
        comps ns.length k (cs.getD i default) := by
      intro i hi
      rw [List.map_map, comps]
      apply List.map_congr_left
      intro j _
      show (cs.map (projTree ns.length j)).getD i default =
        projTree ns.length j (cs.getD i default)
      exact getD_map_of_lt _ cs hi
    refine Eq.trans (List.map_congr_left ?_) (map_getD_range_self cs)
    intro i hi
    rw [List.mem_range] at hi
    show rezip ns.length (((List.range k).map
      (fun j => cs.map (projTree ns.length j))).map
        (fun l => l.getD i default)) = cs.getD i default
    rw [hentries i hi]
    exact ih k (cs.getD i default) hk (hall _ (getD_mem_of_lt cs hi))

/-- The spec's data-model invariants (unique argument names, constants
disjoint from argument names) give the innermost-freshness conditions the
submission characterizations need. -/
theorem invariant_lastArg {α : Type} {combos : List (String × List α)}
    {kwds : Kwds α} (hne : combos ≠ [])
    (hnodup : (combos.map Prod.fst).Nodup)
    (hdisj : ∀ a ∈ combos.map Prod.fst, containsKey kwds a = false) :
    ∃ lastArg, (combos.map Prod.fst).getLast? = some lastArg ∧
      containsKey kwds lastArg = false ∧
      lastArg ∉ combos.dropLast.map Prod.fst := by
  have hmne : combos.map Prod.fst ≠ [] := by simpa using hne
  refine ⟨(combos.map Prod.fst).getLast hmne, List.getLast?_eq_getLast _ hmne,
    hdisj _ (List.getLast_mem hmne), ?_⟩
  intro hmem
  rw [List.map_dropLast] at hmem
  have hsplit := List.dropLast_append_getLast hmne
  rw [← hsplit, List.nodup_append] at hnodup
  exact hnodup.2.2 hmem (by simp)

/-! ## Claim theorems -/

/-- C1: for every non-empty combination list and every mode (direct,
deferred, pooled — all flag combinations of `delay`/`pool`), under the
spec's invariants `nested_submit` returns a nested structure of exactly the
Cartesian-product shape (depth = number of entries, dimension `i` of length
`len(values_i)`), with leaves enumerating the value sequences in row-major
(lexicographic) order at every depth. -/
theorem claim_C1_nested_submit_shape_order {α β : Type} (fn : Kwds α → β)
    (delay pool : Bool) (combos : List (String × List α)) (kwds : Kwds α)
    (hne : combos ≠ [])
    (hnodup : (combos.map Prod.fst).Nodup)
    (hdisj : ∀ a ∈ combos.map Prod.fst, containsKey kwds a = false) :
    ∃ t, nested_submit fn combos kwds delay pool = .ok t ∧
      hasShape t (combos.map (fun e => e.2.length)) = true ∧
      leavesList t = (assignments combos kwds).map (mkLeaf fn delay pool) := by
  obtain ⟨la, h1, h2, h3⟩ := invariant_lastArg hne hnodup hdisj
  exact ⟨_, nested_submit_eq_ok fn delay pool combos kwds la h1 h2 h3,
    buildTree_hasShape _ combos kwds hne, buildTree_leaves _ combos kwds hne⟩

theorem claim_C1_witness :
    ∃ t, nested_submit foo3_scalar [("a", [1, 2]), ("b", [10, 20])] [] false
        true = .ok t ∧
      hasShape t ([("a", [1, 2]), ("b", [10, 20])].map
        (fun e => e.2.length)) = true ∧
      leavesList t = (assignments [("a", [1, 2]), ("b", [10, 20])] []).map
        (mkLeaf foo3_scalar false true) :=
  claim_C1_nested_submit_shape_order foo3_scalar false true
    [("a", [1, 2]), ("b", [10, 20])] [] (by decide) (by decide) (by decide)

/-- C2: collecting a pending-work tree of the Cartesian-product shape with
`ndim` equal to the combination-list length succeeds, yields the tree with
the getter applied to every leaf in place (identical shape, element-wise
correspondence, each leaf visited exactly once in order), and the number of
getter applications — the number of leaves — is the product of the
value-sequence lengths. -/
theorem claim_C2_nested_get_shape_count {α γ δ : Type} (getter : γ → δ)
    (combos : List (String × List α)) (t : NTree γ)
    (hne : combos ≠ [])
    (hsh : hasShape t (combos.map (fun e => e.2.length)) = true) :
    nested_get getter t (combos.length : Int) = some (treeMap getter t) ∧
    hasShape (treeMap getter t) (combos.map (fun e => e.2.length)) = true ∧
    leavesList (treeMap getter t) = (leavesList t).map getter ∧
    (leavesList t).length = (combos.map (fun e => e.2.length)).prod := by
  refine ⟨?_, hasShape_treeMap _ _ _ hsh, leavesList_treeMap _ t,
    leaves_length_of_hasShape _ t hsh⟩
  have hlen : (combos.length : Int) =
      (((combos.map fun e => e.2.length).length : Nat) : Int) := by simp
  rw [hlen]
  exact nested_get_eq_treeMap getter _ t (by simpa using hne) hsh

theorem claim_C2_witness :
    nested_get (fun x => x + 1)
        (NTree.node [NTree.node [NTree.leaf 5, NTree.leaf 6],
          NTree.node [NTree.leaf 7, NTree.leaf (8 : Int)]])
        ([("a", [1, 2]), ("b", [10, 20])].length : Int) =
      some (treeMap (fun x => x + 1)
        (NTree.node [NTree.node [NTree.leaf 5, NTree.leaf 6],
          NTree.node [NTree.leaf 7, NTree.leaf 8]])) ∧
    hasShape (treeMap (fun x => x + 1)
        (NTree.node [NTree.node [NTree.leaf 5, NTree.leaf 6],
          NTree.node [NTree.leaf 7, NTree.leaf (8 : Int)]]))
      ([("a", [1, 2]), ("b", [10, 20])].map (fun e => e.2.length)) = true ∧
    leavesList (treeMap (fun x => x + 1)
        (NTree.node [NTree.node [NTree.leaf 5, NTree.leaf 6],
          NTree.node [NTree.leaf 7, NTree.leaf (8 : Int)]])) =
      (leavesList (NTree.node [NTree.node [NTree.leaf 5, NTree.leaf 6],
        NTree.node [NTree.leaf 7, NTree.leaf 8]])).map (fun x => x + 1) ∧
    (leavesList (NTree.node [NTree.node [NTree.leaf 5, NTree.leaf 6],
        NTree.node [NTree.leaf 7, NTree.leaf (8 : Int)]])).length =
      ([("a", [1, 2]), ("b", [10, 20])].map (fun e => e.2.length)).prod :=
  claim_C2_nested_get_shape_count (fun x => x + 1)
    [("a", [1, 2]), ("b", [10, 20])] _ (by decide) (by decide)

/-- C3: for the test grid `a ∈ [1,2]`, `b ∈ [10,20,30]`,
`c ∈ [100,200,300,400]` and `fn(a,b,c) = a+b+c`, the runner's result holds
`111` at logical index `(0,0,0)` and `432` at `(1,2,3)` on every backend
path. -/
theorem claim_C3_concrete_values (p : BackendPath) :
    resultAt (_combo_runner foo3_scalar
      [("a", [1, 2]), ("b", [10, 20, 30]), ("c", [100, 200, 300, 400])] []
      (pathConfig p)) [0, 0, 0] = some 111 ∧
    resultAt (_combo_runner foo3_scalar
      [("a", [1, 2]), ("b", [10, 20, 30]), ("c", [100, 200, 300, 400])] []
      (pathConfig p)) [1, 2, 3] = some 432 := by
  cases p <;> exact ⟨rfl, rfl⟩

/-- C4: under the spec's invariants, sequential, process-pool and
deferred-graph (dask) modes all return the very same result tree — values
and their placement in nested index order are backend-independent (so in
particular the flattened results coincide). -/
theorem claim_C4_mode_independence {α β : Type} (fn : Kwds α → β)
    (combos : List (String × List α)) (constants : Kwds α)
    (hne : combos ≠ [])
    (hnodup : (combos.map Prod.fst).Nodup)
    (hdisj : ∀ a ∈ combos.map Prod.fst, containsKey constants a = false) :
    ∃ t, _combo_runner fn combos constants (pathConfig .sequential) = .ok t ∧
      _combo_runner fn combos constants (pathConfig .processPool) = .ok t ∧
      _combo_runner fn combos constants (pathConfig .daskGraph) = .ok t := by
  obtain ⟨la, h1, h2, h3⟩ := invariant_lastArg hne hnodup hdisj
  exact ⟨_, combo_runner_path_eq fn .sequential combos constants la h1 h2 h3,
    combo_runner_path_eq fn .processPool combos constants la h1 h2 h3,
    combo_runner_path_eq fn .daskGraph combos constants la h1 h2 h3⟩

theorem claim_C4_witness :
    ∃ t, _combo_runner foo3_scalar [("a", [1, 2])] [("b", 20), ("c", 300)]
        (pathConfig .sequential) = .ok t ∧
      _combo_runner foo3_scalar [("a", [1, 2])] [("b", 20), ("c", 300)]
        (pathConfig .processPool) = .ok t ∧
      _combo_runner foo3_scalar [("a", [1, 2])] [("b", 20), ("c", 300)]
        (pathConfig .daskGraph) = .ok t :=
  claim_C4_mode_independence foo3_scalar [("a", [1, 2])]
    [("b", 20), ("c", 300)] (by decide) (by decide) (by decide)

theorem sum_map_const_nat {σ : Type} (c : Nat) :
    ∀ l : List σ, (l.map (fun _ => c)).sum = l.length * c := by
  intro l
  induction l with
  | nil => simp
  | cons x xs ih =>
    rw [List.map_cons, List.sum_cons, ih, List.length_cons]
    ring

/-- C5: on a positive grid of depth `d = ns.length` whose leaves are all
arity-`k` tuples, `unzip` at level `d` returns exactly the `k` projection
trees in component order; each output tree is a grid of the tuple-free
shape; zipping the outputs back together (`rezip`) reconstructs the
original tree; and the total number of scalar values is conserved.  This is
the transformation `_combo_runner` applies when `split` is set
(see `_combo_runner_split`). -/
theorem claim_C5_unzip_structural_inverse {γ : Type} (ns : List Nat)
    (k : Nat) (t : NTree γ)
    (hne : ns ≠ []) (hpos : ∀ n ∈ ns, 0 < n) (hk : 0 < k)
    (hsh : hasShape t (ns ++ [k]) = true) :
    unzip t ns.length = some (.node (comps ns.length k t)) ∧
    (comps ns.length k t).length = k ∧
    (∀ j, j < k → hasShape (projTree ns.length j t) ns = true) ∧
    rezip ns.length (comps ns.length k t) = t ∧
    ((comps ns.length k t).map (fun c => (leavesList c).length)).sum =
      (leavesList t).length := by
  refine ⟨unzip_grid ns k t hne hpos hsh, by simp [comps],
    fun j hj => projTree_hasShape ns k j t hj hsh,
    rezip_comps ns k t hk hsh, ?_⟩
  rw [comps, List.map_map]
  have heach : ∀ j ∈ List.range k,
      ((fun c => (leavesList c).length) ∘ fun j => projTree ns.length j t) j
        = ns.prod := by
    intro j hj
    exact leaves_length_of_hasShape _ _
      (projTree_hasShape ns k j t (List.mem_range.mp hj) hsh)
  rw [List.map_congr_left heach, sum_map_const_nat,
    leaves_length_of_hasShape _ t hsh, List.length_range, List.prod_append]
  simp [Nat.mul_comm]

theorem claim_C5_witness :
    unzip (NTree.node [NTree.node [NTree.leaf 1, NTree.leaf 10],
        NTree.node [NTree.leaf 2, NTree.leaf (20 : Int)]]) [2].length =
      some (.node (comps [2].length 2
        (NTree.node [NTree.node [NTree.leaf 1, NTree.leaf 10],
          NTree.node [NTree.leaf 2, NTree.leaf 20]]))) ∧
    (comps [2].length 2
      (NTree.node [NTree.node [NTree.leaf 1, NTree.leaf 10],
        NTree.node [NTree.leaf 2, NTree.leaf (20 : Int)]])).length = 2 ∧
    (∀ j, j < 2 → hasShape (projTree [2].length j
      (NTree.node [NTree.node [NTree.leaf 1, NTree.leaf 10],
        NTree.node [NTree.leaf 2, NTree.leaf (20 : Int)]])) [2] = true) ∧
    rezip [2].length (comps [2].length 2
      (NTree.node [NTree.node [NTree.leaf 1, NTree.leaf 10],
        NTree.node [NTree.leaf 2, NTree.leaf (20 : Int)]])) =
      NTree.node [NTree.node [NTree.leaf 1, NTree.leaf 10],
        NTree.node [NTree.leaf 2, NTree.leaf 20]] ∧
    ((comps [2].length 2
      (NTree.node [NTree.node [NTree.leaf 1, NTree.leaf 10],
        NTree.node [NTree.leaf 2, NTree.leaf (20 : Int)]])).map
          (fun c => (leavesList c).length)).sum =
      (leavesList (NTree.node [NTree.node [NTree.leaf 1, NTree.leaf 10],
        NTree.node [NTree.leaf 2, NTree.leaf (20 : Int)]])).length :=
  claim_C5_unzip_structural_inverse [2] 2 _ (by decide) (by decide)
    (by decide) (by decide)

/-- C6: a scheduler given as the unrecognized name `"z"` (with no
caller-supplied pool, for every non-MPI `parallel` value and any worker
count) makes the dispatcher fail with the configuration error; the outcome
does not depend on `fn`, no result tree is produced, and the error is
raised before the deferred graph is handed to `compute`. -/
theorem claim_C6_bad_scheduler_error {α β : Type} (fn : Kwds α → β)
    (par : Parallel) (nw : Option Nat)
    (combos : List (String × List α)) (constants : Kwds α)
    (hpar : par ≠ .mpi) (hne : combos ≠ [])
    (hnodup : (combos.map Prod.fst).Nodup)
    (hdisj : ∀ a ∈ combos.map Prod.fst, containsKey constants a = false) :
    _combo_runner fn combos constants
      { parallel := par, num_workers := nw, scheduler := .strName "z",
        pool := .noPool } = .error (.badScheduler "z") := by
  obtain ⟨la, h1, h2, h3⟩ := invariant_lastArg hne hnodup hdisj
  exact combo_runner_badSched fn par nw "z" combos constants la hpar
    (by decide) (by decide) h1 h2 h3

theorem claim_C6_witness :
    _combo_runner foo3_scalar [("a", [1, 2]), ("b", [10, 20, 30])] []
      { parallel := .off, num_workers := some 2, scheduler := .strName "z",
        pool := .noPool } = .error (.badScheduler "z") :=
  claim_C6_bad_scheduler_error foo3_scalar .off (some 2)
    [("a", [1, 2]), ("b", [10, 20, 30])] [] (by decide) (by decide)
    (by decide) (by decide)

/-- C7: the uniform result accessor first tries the future-style
`result()`; when that attribute is missing it falls back to the get-style
`get()`; and when neither accessor exists the error of the second (`get`)
attempt surfaces to the caller. -/
theorem claim_C7_getter_fallback {β : Type} (fut : PyObj β) :
    (∀ b : β, fut.result = some (.ok b) → default_getter fut = .ok b) ∧
    (fut.result = none → default_getter fut = callAttr fut.get "get") ∧
    (fut.result = none → fut.get = none →
      default_getter fut = .error (.attributeError "get")) := by
  refine ⟨?_, ?_, ?_⟩
  · intro b hb
    unfold default_getter
    rw [hb]
    rfl
  · intro h
    unfold default_getter
    rw [h]
    rfl
  · intro h hg
    unfold default_getter
    rw [h, hg]
    rfl

theorem claim_C7_witness :
    default_getter (PyObj.mk none none : PyObj Int) =
      .error (.attributeError "get") :=
  (claim_C7_getter_fallback (PyObj.mk none none)).2.2 rfl rfl

/-- C8: the single-entry combination list `[('a', [1,2])]` with constants
`{b: 20, c: 300}` and `fn(a,b,c) = a+b+c` yields `[321, 322]` under every
backend path: the constants are merged into each invocation. -/
theorem claim_C8_constants_merged (p : BackendPath) :
    _combo_runner foo3_scalar [("a", [1, 2])] [("b", 20), ("c", 300)]
      (pathConfig p) = .ok (.node [.leaf 321, .leaf 322]) := by
  cases p <;> rfl

/-- C9: when a constants key equals a combination argument name, the
outcome depends on the argument's position.  A non-innermost entry merges
its iterated value with the dict display `{**kwds, arg: x}`, which silently
overwrites the constant (last write wins) and — as long as the innermost
name stays fresh — still produces a result tree.  The innermost entry
merges by call syntax, so with every value sequence non-empty the whole
submission raises the duplicate-keyword error and no result tree is
produced, in every mode. -/
theorem claim_C9_collision_position {α β : Type} (fn : Kwds α → β)
    (delay pool : Bool) (kwds : Kwds α) :
    (∀ (arg : String) (inputs : List α) (c : String × List α)
        (cs : List (String × List α)),
      nested_submit fn ((arg, inputs) :: c :: cs) kwds delay pool =
        (inputs.mapM (fun x => nested_submit fn (c :: cs)
          (dictInsert kwds arg x) delay pool)).map NTree.node) ∧
    (∀ (arg : String) (x : α), lookupKw (dictInsert kwds arg x) arg = some x) ∧
    (∀ (combos : List (String × List α)) (lastArg : String),
      (combos.map Prod.fst).getLast? = some lastArg →
      containsKey kwds lastArg = false →
      lastArg ∉ combos.dropLast.map Prod.fst →
      ∃ t, nested_submit fn combos kwds delay pool = .ok t) ∧
    (∀ (combos : List (String × List α)) (lastArg : String),
      (combos.map Prod.fst).getLast? = some lastArg →
      containsKey kwds lastArg = true →
      (∀ e ∈ combos, e.2 ≠ []) →
      nested_submit fn combos kwds delay pool =
        .error (.duplicateKwarg lastArg)) := by
  refine ⟨fun arg inputs c cs => rfl,
    fun arg x => lookupKw_dictInsert kwds arg x,
    fun combos lastArg h1 h2 h3 =>
      ⟨_, nested_submit_eq_ok fn delay pool combos kwds lastArg h1 h2 h3⟩,
    fun combos lastArg h1 h2 h3 =>
      nested_submit_duplicate fn delay pool combos kwds lastArg h1 h2 h3⟩

theorem claim_C9_witness :
    (∃ t, nested_submit foo3_scalar [("a", [1, 2]), ("b", [10])]
      [("a", 5)] false false = .ok t) ∧
    nested_submit foo3_scalar [("b", [10]), ("a", [1, 2])] [("a", 5)]
      false false = .error (.duplicateKwarg "a") :=
  ⟨(claim_C9_collision_position foo3_scalar false false [("a", 5)]).2.2.1
      [("a", [1, 2]), ("b", [10])] "b" (by decide) (by decide) (by decide),
    (claim_C9_collision_position foo3_scalar false false [("a", 5)]).2.2.2
      [("b", [10]), ("a", [1, 2])] "a" (by decide) (by decide) (by decide)⟩

/-- C10: on a depth-1 tree whose tuple leaves have differing arities,
`unzip` raises nothing: it returns exactly `minLen tups` output trees —
the minimum leaf arity — each holding the `j`-th components, silently
discarding the extra components of longer tuples. -/
theorem claim_C10_ragged_truncation {γ : Type} [Inhabited γ]
    (tups : List (List γ)) :
    unzip (NTree.node (tups.map (fun tp => NTree.node (tp.map NTree.leaf))))
        1 =
      some (NTree.node ((List.range (minLen tups)).map (fun j =>
        NTree.node (tups.map (fun tp => NTree.leaf (tp.getD j default)))))) ∧
    ((List.range (minLen tups)).map (fun j =>
      NTree.node (tups.map (fun tp =>
        NTree.leaf (tp.getD j default))))).length = minLen tups := by
  refine ⟨?_, by simp⟩
  rw [unzip_pos _ (by simp)]
  show pyZipStar (NTree.node (tups.map
    (fun tp => NTree.node (tp.map NTree.leaf)))) = _
  rw [pyZipStar]
  have hmapM : (tups.map (fun tp => NTree.node (tp.map NTree.leaf))).mapM
      childrenOf = some (tups.map (fun tp => tp.map NTree.leaf)) :=
    mapM_option_some_map tups (fun tp _ => rfl)
  rw [hmapM]
  have hmin : minLen (tups.map (fun tp => tp.map NTree.leaf)) =
      minLen tups :=
    minLen_congr _ (fun tp => by simp) tups
  simp only [Option.map_some', transposeMin, hmin, List.map_map]
  refine congrArg some (congrArg NTree.node ?_)
  apply List.map_congr_left
  intro j hj
  rw [List.mem_range] at hj
  show NTree.node (tups.map (fun tp => (tp.map NTree.leaf).getD j default)) =
    NTree.node (tups.map (fun tp => NTree.leaf (tp.getD j default)))
  refine congrArg NTree.node ?_
  apply List.map_congr_left
  intro tp htp
  exact getD_map_of_lt NTree.leaf tp
    (Nat.lt_of_lt_of_le hj (minLen_le tups tp htp))

end Xyzpy
